import Mathlib

/-!
Verification of the constraint-satisfaction filtering algorithm of the
wordle-cz-solver repository (`js/algorithm.js`).

Words are modelled as lists of characters (the code works on `chars = [...word]`
plus a precomputed `letterCounts` table, which we model by `List.count`).
The constraint model mirrors the four feedback categories of the source:
`green` (exact position), `blue` (position plus at least one extra occurrence),
`orange` (letter present but forbidden positions), `gray` (absent letters).
JavaScript objects keyed by position/letter are modelled as association lists;
the `Set` of gray letters is modelled as a list (iteration over duplicates is
idempotent, so this is faithful).
-/

namespace WordleCz

abbrev Word := List Char

/-- The `letterCounts` metadata of `createWordMetadata`: occurrences of a letter. -/
def letterCount (w : Word) (c : Char) : Nat := w.count c

/-- JavaScript `String.prototype.toLowerCase`, modelled on the characters the
algorithm can meet: the 26 ASCII uppercase letters and the uppercase Czech
accented letters appearing in `diacriticMap`; every other character is
returned unchanged (faithful for the Czech alphabet the solver operates on). -/
def upperMap : List (Char × Char) :=
  [('A', 'a'), ('B', 'b'), ('C', 'c'), ('D', 'd'), ('E', 'e'), ('F', 'f'),
   ('G', 'g'), ('H', 'h'), ('I', 'i'), ('J', 'j'), ('K', 'k'), ('L', 'l'),
   ('M', 'm'), ('N', 'n'), ('O', 'o'), ('P', 'p'), ('Q', 'q'), ('R', 'r'),
   ('S', 's'), ('T', 't'), ('U', 'u'), ('V', 'v'), ('W', 'w'), ('X', 'x'),
   ('Y', 'y'), ('Z', 'z'),
   ('Á', 'á'), ('Č', 'č'), ('Ď', 'ď'), ('É', 'é'), ('Ě', 'ě'), ('Í', 'í'),
   ('Ň', 'ň'), ('Ó', 'ó'), ('Ř', 'ř'), ('Š', 'š'), ('Ť', 'ť'), ('Ú', 'ú'),
   ('Ů', 'ů'), ('Ý', 'ý'), ('Ž', 'ž')]

def jsToLower (c : Char) : Char := (upperMap.lookup c).getD c

/-- The fixed substitution table `diacriticMap` of `normalizeCzechText`,
exactly as written in the source (both cases listed). -/
def diacriticMap : List (Char × Char) :=
  [('á', 'a'), ('Á', 'a'), ('č', 'c'), ('Č', 'c'), ('ď', 'd'), ('Ď', 'd'),
   ('é', 'e'), ('É', 'e'), ('ě', 'e'), ('Ě', 'e'), ('í', 'i'), ('Í', 'i'),
   ('ň', 'n'), ('Ň', 'n'), ('ó', 'o'), ('Ó', 'o'), ('ř', 'r'), ('Ř', 'r'),
   ('š', 's'), ('Š', 's'), ('ť', 't'), ('Ť', 't'), ('ú', 'u'), ('Ú', 'u'),
   ('ů', 'u'), ('Ů', 'u'), ('ý', 'y'), ('Ý', 'y'), ('ž', 'z'), ('Ž', 'z')]

/-- One character of `normalizeCzechText`: lowercase first, then
`diacriticMap[char] || char`. -/
def normalizeChar (c : Char) : Char :=
  let lc := jsToLower c
  (diacriticMap.lookup lc).getD lc

/-- `normalizeCzechText`: `text.toLowerCase().split('').map(...).join('')`. -/
def normalizeCzechText (s : Word) : Word := s.map normalizeChar

/-- The normalized constraint model (result of `normalizeConstraints`):
`green`/`blue` are position-to-letter maps, `orange` maps a letter to its
forbidden positions, `gray` is the set of absent letters. -/
structure Constraints where
  green : List (Nat × Char)
  blue : List (Nat × Char)
  orange : List (Char × List Nat)
  gray : List Char

/-- A raw constraint object as the matcher receives it from the UI; a `none`
field models a missing key, which the destructuring defaults of
`normalizeConstraints` replace by an empty map or set. -/
structure RawConstraints where
  green : Option (List (Nat × Char))
  blue : Option (List (Nat × Char))
  orange : Option (List (Char × List Nat))
  gray : Option (List Char)

/-- `Object.values` of a position-to-letter map. -/
def valuesOf (m : List (Nat × Char)) : List Char := m.map Prod.snd

/-- `Object.keys` of the orange letter-to-positions map. -/
def keysOf (m : List (Char × List Nat)) : List Char := m.map Prod.fst

/-- `Object.values(m).filter(l => l === letter).length`. -/
def countVal (m : List (Nat × Char)) (letter : Char) : Nat := (valuesOf m).count letter

/-- `normalizeConstraints`: default missing fields to empty, then apply
`normalizeCzechText` to every letter (values of `green`/`blue`, keys of
`orange`, elements of `gray`). -/
def normalizeConstraints (rc : RawConstraints) : Constraints where
  green := (rc.green.getD []).map fun e => (e.1, normalizeChar e.2)
  blue := (rc.blue.getD []).map fun e => (e.1, normalizeChar e.2)
  orange := (rc.orange.getD []).map fun e => (normalizeChar e.1, e.2)
  gray := (rc.gray.getD []).map normalizeChar

/-- `checkPositionConstraints`: every green and every blue position must hold
its letter (`chars[pos] !== letter` rejects, and an out-of-range index can
never equal a letter). -/
def checkPositionConstraints (chars : Word) (green blue : List (Nat × Char)) : Bool :=
  (green.all fun e => chars[e.1]? == some e.2) &&
  (blue.all fun e => chars[e.1]? == some e.2)

/-- `checkOrangeConstraints`: an orange letter must occur somewhere
(`letterCounts[letter]` truthy) and at none of its forbidden positions. -/
def checkOrangeConstraints (chars : Word) (orange : List (Char × List Nat)) : Bool :=
  orange.all fun e =>
    (!(letterCount chars e.1 == 0)) && (e.2.all fun p => !(chars[p]? == some e.1))

/-- `checkLetterCountConstraints`: a green letter that is not blue must occur
exactly as many times as it has green positions (with or without orange
entries); a blue letter must occur strictly more often than it has blue
positions. -/
def checkLetterCountConstraints (chars : Word) (green blue : List (Nat × Char))
    (orange : List (Char × List Nat)) : Bool :=
  ((valuesOf green).all fun letter =>
    let greenCount := countVal green letter
    let actualCount := letterCount chars letter
    if !(valuesOf blue).contains letter && !(keysOf orange).contains letter then
      actualCount == greenCount
    else if (keysOf orange).contains letter && !(valuesOf blue).contains letter then
      actualCount == greenCount
    else true) &&
  ((valuesOf blue).all fun letter =>
    decide (countVal blue letter < letterCount chars letter))

/-- `checkGrayConstraints`: a gray letter appearing in no other category must
not occur at all; otherwise the expected count is the number of its green
positions plus the number of its blue positions (at least 1 when it is
orange-only), and the occurrence count must equal it exactly unless the
letter is simultaneously green and blue (then no gray check applies). -/
def checkGrayConstraints (chars : Word) (gray : List Char) (green blue : List (Nat × Char))
    (orange : List (Char × List Nat)) : Bool :=
  gray.all fun letter =>
    let isGreen := (valuesOf green).contains letter
    let isBlue := (valuesOf blue).contains letter
    let isOrange := (keysOf orange).contains letter
    let isSpecial := isGreen || isOrange || isBlue
    if !isSpecial && !(letterCount chars letter == 0) then
      false
    else if isSpecial then
      let fromGreen := if isGreen then countVal green letter else 0
      let fromBlue := if isBlue then countVal blue letter else 0
      let requiredCount :=
        if isOrange && !isGreen && !isBlue then max (fromGreen + fromBlue) 1
        else fromGreen + fromBlue
      let actualCount := letterCount chars letter
      if isGreen && !isBlue then actualCount == requiredCount
      else if isBlue && !isGreen then actualCount == requiredCount
      else if !isGreen && !isBlue && isOrange then actualCount == requiredCount
      else true
    else true

/-- `checkConstraints`: the conjunction of the four checks (the source
fail-fasts through them in this order; for the final verdict this is the
boolean conjunction). -/
def checkConstraints (chars : Word) (c : Constraints) : Bool :=
  checkPositionConstraints chars c.green c.blue &&
  checkOrangeConstraints chars c.orange &&
  checkLetterCountConstraints chars c.green c.blue c.orange &&
  checkGrayConstraints chars c.gray c.green c.blue c.orange

/-- `matchesConstraints`: normalize the raw constraint object, then check. -/
def matchesConstraints (chars : Word) (rc : RawConstraints) : Bool :=
  checkConstraints chars (normalizeConstraints rc)

/-- `filterWordsGenerator`: yield, in dictionary order, the words that match. -/
def filterWordsGenerator (wordMetadata : List Word) (rc : RawConstraints) : List Word :=
  match wordMetadata with
  | [] => []
  | w :: rest =>
    if matchesConstraints w rc then w :: filterWordsGenerator rest rc
    else filterWordsGenerator rest rc

/-- `filterWords` materializes the generator into an array. -/
def filterWords (wordMetadata : List Word) (rc : RawConstraints) : List Word :=
  filterWordsGenerator wordMetadata rc

/-- The `letterFreq` table of `getSuggestions`: total occurrences of a letter
across the entire dictionary (each occurrence counted). -/
def letterFreq (wordMetadata : List Word) (letter : Char) : Nat :=
  (wordMetadata.map fun w => letterCount w letter).sum

/-- The `scoreWord` closure of `getSuggestions`: sum of the global frequency
of each distinct letter of the word (`new Set(wordMeta.chars)`). -/
def scoreWord (wordMetadata : List Word) (w : Word) : Nat :=
  (w.dedup.map (letterFreq wordMetadata)).sum

/-- The match-collecting loop of `getSuggestions`: push every matching word
with its score, and break once `limit * 3` matches have been collected
(`len` is the number of matches pushed so far). -/
def collectMatches (rc : RawConstraints) (score : Word → Nat) :
    List Word → Nat → Nat → List (Word × Nat)
  | [], _, _ => []
  | w :: rest, len, cap =>
    if matchesConstraints w rc then
      if cap ≤ len + 1 then [(w, score w)]
      else (w, score w) :: collectMatches rc score rest (len + 1) cap
    else collectMatches rc score rest len cap

/-- `getSuggestions`: collect up to `limit * 3` matches, sort them by
descending score (JavaScript `sort` is stable, modelled by the stable
`insertionSort`), take the first `limit` and return the words. -/
def getSuggestions (wordMetadata : List Word) (rc : RawConstraints) (limit : Nat) : List Word :=
  let found := collectMatches rc (scoreWord wordMetadata) wordMetadata 0 (limit * 3)
  ((found.insertionSort fun a b => b.2 ≤ a.2).take limit).map Prod.fst

/-- A raw constraint object with every missing field replaced by the empty
map or set, the replacement `normalizeConstraints` performs via its
destructuring defaults. -/
def fillMissing (rc : RawConstraints) : RawConstraints where
  green := some (rc.green.getD [])
  blue := some (rc.blue.getD [])
  orange := some (rc.orange.getD [])
  gray := some (rc.gray.getD [])

/-- Concrete words and constraint models used as inputs below. -/
def wTatka : Word := ['t', 'a', 't', 'k', 'a']

def wTepna : Word := ['t', 'e', 'p', 'n', 'a']

def wSousa : Word := ['s', 'o', 'u', 's', 'a']

def wSrnka : Word := ['s', 'r', 'n', 'k', 'a']

/-- The raw model of claim C2: `t` exact at position 0 and absent. -/
def rcExactAbsent : RawConstraints :=
  ⟨some [(0, 't')], some [], some [], some ['t']⟩

/-- The normalized model of claim C1: `s` elsewhere at position 0 and absent. -/
def cBlueAbsent : Constraints := ⟨[], [(0, 's')], [], ['s']⟩

/-- A model in which `a` is both exact (position 0) and elsewhere (position 1),
used for claim C9. -/
def cGreenBlue : Constraints := ⟨[(0, 'a')], [(1, 'a')], [], []⟩

/-- A model with `r` misplaced at position 3 and nothing else. -/
def cOrangeOnly : Constraints := ⟨[], [], [('r', [3])], []⟩

/-- A small concrete dictionary for suggestion checks. -/
def dictSmall : List Word :=
  [['a', 'a', 'a', 'a', 'a'], ['a', 'b', 'c', 'd', 'e'], ['b', 'b', 'b', 'b', 'b']]

/-- An example raw model missing two of its four fields. -/
def rcPartial : RawConstraints := ⟨some [(0, 'a')], none, none, some []⟩

/-- A successful association-list lookup returns one of the stored values. -/
theorem lookup_mem_values {m : List (Char × Char)} {c b : Char}
    (h : m.lookup c = some b) : b ∈ m.map Prod.snd := by
  induction m with
  | nil => simp [List.lookup] at h
  | cons e t ih =>
    rw [List.lookup] at h
    by_cases hc : c = e.1
    · simp [hc] at h
      simp [← h]
    · have hb : (c == e.1) = false := by simp [hc]
      rw [hb] at h
      simp [ih h]

theorem jsToLower_idem (c : Char) : jsToLower (jsToLower c) = jsToLower c := by
  unfold jsToLower
  cases h : upperMap.lookup c with
  | none => simp only [Option.getD_none]; rw [h]; rfl
  | some b =>
    simp only [Option.getD_some]
    have hb : b ∈ upperMap.map Prod.snd := lookup_mem_values h
    have hall : upperMap.all (fun e => (upperMap.lookup e.2).isNone) = true := by decide
    rw [List.all_eq_true] at hall
    have hmem : ∃ e ∈ upperMap, e.2 = b := by
      simpa [List.mem_map] using hb
    obtain ⟨e, he, hbe⟩ := hmem
    have h2 := hall e he
    rw [hbe, Option.isNone_iff_eq_none] at h2
    rw [h2]
    rfl

theorem normalizeChar_idem (c : Char) : normalizeChar (normalizeChar c) = normalizeChar c := by
  unfold normalizeChar
  cases h : diacriticMap.lookup (jsToLower c) with
  | none =>
    simp only [h, Option.getD_none]
    rw [jsToLower_idem, h]
    rfl
  | some b =>
    simp only [h, Option.getD_some]
    have hb : b ∈ diacriticMap.map Prod.snd := lookup_mem_values h
    have hall : diacriticMap.all
        (fun e => jsToLower e.2 == e.2 && (diacriticMap.lookup e.2).isNone) = true := by decide
    rw [List.all_eq_true] at hall
    have hmem : ∃ e ∈ diacriticMap, e.2 = b := by
      simpa [List.mem_map] using hb
    obtain ⟨e, he, hbe⟩ := hmem
    have h2 := hall e he
    rw [hbe] at h2
    simp only [Bool.and_eq_true, beq_iff_eq, Option.isNone_iff_eq_none] at h2
    rw [h2.1, h2.2]
    rfl

/-- Claim C7: the text normalizer is idempotent on every input, and it sends
every accented character of its fixed substitution table (both cases are
listed in the table) to the documented base Latin letter. -/
theorem normalizeCzechText_idem_and_table :
    (∀ s : Word, normalizeCzechText (normalizeCzechText s) = normalizeCzechText s) ∧
    diacriticMap.all (fun e => normalizeCzechText [e.1] == [e.2]) = true := by
  constructor
  · intro s
    induction s with
    | nil => rfl
    | cons a t ih =>
      simp only [normalizeCzechText, List.map_cons] at *
      rw [normalizeChar_idem]
      simpa [normalizeCzechText] using ih
  · decide


/-! Helper lemmas shared by the claim theorems. -/

theorem filterWords_eq_filter (dict : List Word) (rc : RawConstraints) :
    filterWords dict rc = dict.filter fun w => matchesConstraints w rc := by
  induction dict with
  | nil => rfl
  | cons w rest ih =>
    simp only [filterWords, filterWordsGenerator] at *
    by_cases h : matchesConstraints w rc = true
    · simp [h, List.filter_cons, ih]
    · simp only [Bool.not_eq_true] at h
      simp [h, List.filter_cons, ih]

theorem mem_filterWords {w : Word} {dict : List Word} {rc : RawConstraints} :
    w ∈ filterWords dict rc ↔ w ∈ dict ∧ matchesConstraints w rc = true := by
  rw [filterWords_eq_filter]
  simp [List.mem_filter]

/-- Claim C8: the matcher is total on constraint objects with missing fields
(it is a total boolean function by construction, so it never throws), and its
verdict on any word equals the verdict after replacing every missing field by
the empty map or set. -/
theorem matchesConstraints_fillMissing (w : Word) (rc : RawConstraints) :
    matchesConstraints w rc = matchesConstraints w (fillMissing rc) := rfl

/-- Claim C10: the filter-only operation is exactly the order-preserving
filter of the dictionary by the matcher: it is a sublist of the dictionary
(original order, deterministic), and each word occurs in the output with its
full dictionary multiplicity when it matches and not at all otherwise. -/
theorem filterWords_order_preserving_complete (dict : List Word) (rc : RawConstraints) :
    filterWords dict rc = (dict.filter fun w => matchesConstraints w rc) ∧
    (filterWords dict rc).Sublist dict ∧
    ∀ w : Word, (filterWords dict rc).count w =
      if matchesConstraints w rc then dict.count w else 0 := by
  refine ⟨filterWords_eq_filter dict rc, ?_, ?_⟩
  · rw [filterWords_eq_filter]
    exact List.filter_sublist dict
  · intro w
    rw [filterWords_eq_filter]
    by_cases h : matchesConstraints w rc = true
    · rw [h]
      simp only [if_true]
      exact List.count_filter h
    · simp only [Bool.not_eq_true] at h
      rw [h]
      simp only [Bool.false_eq_true, if_false]
      rw [List.count_eq_zero]
      intro hmem
      have h2 := (List.mem_filter.mp hmem).2
      rw [h] at h2
      exact Bool.false_ne_true h2

/-- Claim C5: for every letter with a non-empty set of forbidden (misplaced)
positions, every candidate accepted by the matcher contains the letter at
least once and has it at none of the forbidden positions (positions possibly
accumulated from several guesses are a single merged entry of the model). -/
theorem orange_letter_present_not_at_forbidden (c : Constraints) (L : Char) (ps : List Nat)
    (w : Word) (ho : (L, ps) ∈ c.orange) (hne : ps ≠ [])
    (hacc : checkConstraints w c = true) :
    letterCount w L ≠ 0 ∧ ∀ p ∈ ps, w[p]? ≠ some L := by
  simp only [checkConstraints, Bool.and_eq_true] at hacc
  have h := hacc.1.1.2
  simp only [checkOrangeConstraints, List.all_eq_true] at h
  have h2 := h (L, ps) ho
  simp only [Bool.and_eq_true, Bool.not_eq_eq_eq_not, Bool.not_true, beq_eq_false_iff_ne,
    List.all_eq_true] at h2
  exact ⟨h2.1, fun p hp => h2.2 p hp⟩

/-- Claim C5 witness: the model `cOrangeOnly` forbids `r` at position 3;
`srnka` is accepted and indeed contains `r` away from position 3. -/
theorem orange_letter_present_not_at_forbidden_witness :
    letterCount wSrnka 'r' ≠ 0 ∧ ∀ p ∈ [3], wSrnka[p]? ≠ some 'r' :=
  orange_letter_present_not_at_forbidden cOrangeOnly 'r' [3] wSrnka (by decide) (by decide)
    (by decide)

/-- Claim C4: for every letter occurring in the elsewhere (blue) map at `k`
positions (the positions of the map are distinct, as JavaScript object keys
are), every accepted candidate has the letter at each of those positions and
strictly more than `k` total occurrences; with a single blue position this
gives the letter at that position and at least 2 occurrences. -/
theorem blue_letter_position_and_min_count (c : Constraints) (L : Char) (w : Word)
    (hnd : (c.blue.map Prod.fst).Nodup)
    (hb : L ∈ valuesOf c.blue)
    (hacc : checkConstraints w c = true) :
    (∀ p, (p, L) ∈ c.blue → w[p]? = some L) ∧ countVal c.blue L < letterCount w L := by
  simp only [checkConstraints, Bool.and_eq_true] at hacc
  constructor
  · intro p hp
    have h := hacc.1.1.1
    simp only [checkPositionConstraints, Bool.and_eq_true, List.all_eq_true] at h
    have h2 := h.2 (p, L) hp
    simpa using h2
  · have h := hacc.1.2
    simp only [checkLetterCountConstraints, Bool.and_eq_true, List.all_eq_true] at h
    have h2 := h.2 L hb
    simpa using h2

/-- Claim C4 witness: with `s` elsewhere at position 0 (one blue position),
the accepted word `sousa` has `s` at position 0 and two occurrences. -/
theorem blue_letter_position_and_min_count_witness :
    (∀ p, (p, 's') ∈ ([(0, 's')] : List (Nat × Char)) → wSousa[p]? = some 's') ∧
    countVal [(0, 's')] 's' < letterCount wSousa 's' :=
  blue_letter_position_and_min_count ⟨[], [(0, 's')], [], []⟩ 's' wSousa (by decide)
    (by decide) (by decide)

/-- Claim C3: for every letter occurring in the exact (green) map at `k`
positions (positions of the map are distinct) and not in the blue map —
whether or not it occurs in the misplaced map — every accepted candidate has
exactly `k` total occurrences of the letter: misplaced entries do not loosen
the exact-count requirement. -/
theorem green_letter_exact_count (c : Constraints) (L : Char) (w : Word)
    (hnd : (c.green.map Prod.fst).Nodup)
    (hg : L ∈ valuesOf c.green)
    (hb : L ∉ valuesOf c.blue)
    (hacc : checkConstraints w c = true) :
    letterCount w L = countVal c.green L := by
  simp only [checkConstraints, Bool.and_eq_true] at hacc
  have h := hacc.1.2
  simp only [checkLetterCountConstraints, Bool.and_eq_true, List.all_eq_true] at h
  have h2 := h.1 L hg
  by_cases ho : L ∈ keysOf c.orange
  · simp [List.contains, hb, ho] at h2
    exact h2
  · simp [List.contains, hb, ho] at h2
    exact h2

/-- Claim C3 witness: `a` green at positions 2 and 4, also misplaced at 0,
not blue; the accepted word `tatka` has exactly two occurrences of `a`. -/
theorem green_letter_exact_count_witness :
    letterCount wTatka 'a' = countVal [(1, 'a'), (4, 'a')] 'a' :=
  green_letter_exact_count ⟨[(1, 'a'), (4, 'a')], [], [('a', [0])], []⟩ 'a' wTatka
    (by decide) (by decide) (by decide) (by decide)

/-- Claim C9: for a letter occurring in both the exact (green) and the
elsewhere (blue) maps, additionally marking it absent (gray) never changes
the matcher's verdict: the gray reconciliation has no branch for a letter
that is simultaneously green and blue, so the extra gray entry is a no-op. -/
theorem gray_mark_noop_for_green_and_blue (c : Constraints) (L : Char) (w : Word)
    (hg : L ∈ valuesOf c.green) (hb : L ∈ valuesOf c.blue) :
    checkConstraints w ⟨c.green, c.blue, c.orange, L :: c.gray⟩ = checkConstraints w c := by
  simp only [checkConstraints]
  have hL : checkGrayConstraints w (L :: c.gray) c.green c.blue c.orange =
      checkGrayConstraints w c.gray c.green c.blue c.orange := by
    simp only [checkGrayConstraints, List.all_cons]
    simp [List.contains, hg, hb]
  rw [hL]

/-- Claim C9 witness: in `cGreenBlue` the letter `a` is green at 0 and blue
at 1; adding `a` to the gray set leaves the verdict on `tatka` unchanged. -/
theorem gray_mark_noop_for_green_and_blue_witness :
    checkConstraints wTatka ⟨cGreenBlue.green, cGreenBlue.blue, cGreenBlue.orange,
      'a' :: cGreenBlue.gray⟩ = checkConstraints wTatka cGreenBlue :=
  gray_mark_noop_for_green_and_blue cGreenBlue 'a' wTatka (by decide) (by decide)

/-- Claim C2: a letter exact at a single green position and also marked
absent, and in no other category, occurs in every filtered word exactly once,
at that position; concretely, with `t` exact at position 0 and absent, the
filter keeps `tepna` (one `t`) and rejects `tatka` (two t's). -/
theorem exact_and_absent_single_occurrence :
    (∀ (rc : RawConstraints) (L : Char) (p : Nat) (dict : List Word),
      (p, L) ∈ (normalizeConstraints rc).green →
      countVal (normalizeConstraints rc).green L = 1 →
      L ∈ (normalizeConstraints rc).gray →
      L ∉ valuesOf (normalizeConstraints rc).blue →
      L ∉ keysOf (normalizeConstraints rc).orange →
      ∀ w ∈ filterWords dict rc, w[p]? = some L ∧ letterCount w L = 1) ∧
    filterWords [wTatka, wTepna] rcExactAbsent = [wTepna] := by
  constructor
  · intro rc L p dict hg hcnt hgr hb ho w hw
    have hacc : checkConstraints w (normalizeConstraints rc) = true :=
      (mem_filterWords.mp hw).2
    simp only [checkConstraints, Bool.and_eq_true] at hacc
    constructor
    · have h := hacc.1.1.1
      simp only [checkPositionConstraints, Bool.and_eq_true, List.all_eq_true] at h
      have h2 := h.1 (p, L) hg
      simpa using h2
    · have hgmem : L ∈ valuesOf (normalizeConstraints rc).green := by
        simpa [valuesOf] using List.mem_map_of_mem Prod.snd hg
      have h := hacc.2
      simp only [checkGrayConstraints, List.all_eq_true] at h
      have h2 := h L hgr
      simp [List.contains, hgmem, hb, ho, hcnt] at h2
      exact h2
  · decide

/-- Claim C2 witness: the accepted word `tepna` has `t` at position 0 and a
single occurrence of `t`. -/
theorem exact_and_absent_single_occurrence_witness :
    wTepna[0]? = some 't' ∧ letterCount wTepna 't' = 1 :=
  exact_and_absent_single_occurrence.1 rcExactAbsent 't' 0 [wTatka, wTepna] (by decide)
    (by decide) (by decide) (by decide) (by decide) wTepna (by decide)

/-- Claim C1 (the code disagrees with the spec here): for a letter that is in
the elsewhere (blue) map and the absent set and nowhere else, the blue
minimum-count check demands strictly more occurrences than the blue
positions, while the gray reconciliation demands exactly as many occurrences
as the blue positions — so the matcher rejects every word, instead of
accepting words with the elsewhere-required count as the spec requires. -/
theorem blue_and_absent_rejects_every_word (c : Constraints) (L : Char)
    (hb : L ∈ valuesOf c.blue) (hgr : L ∈ c.gray)
    (hg : L ∉ valuesOf c.green) (ho : L ∉ keysOf c.orange) :
    ∀ w : Word, checkConstraints w c = false := by
  intro w
  cases hcc : checkConstraints w c with
  | false => rfl
  | true =>
    exfalso
    simp only [checkConstraints, Bool.and_eq_true] at hcc
    have hcount := hcc.1.2
    simp only [checkLetterCountConstraints, Bool.and_eq_true, List.all_eq_true] at hcount
    have h1 := hcount.2 L hb
    simp only [decide_eq_true_eq] at h1
    have hgray := hcc.2
    simp only [checkGrayConstraints, List.all_eq_true] at hgray
    have h2 := hgray L hgr
    simp [List.contains, hb, hg, ho] at h2
    omega

/-- Claim C1 witness: with `s` blue at position 0 and absent, the word
`sousa` — `s` at position 0 and exactly 2 = 1 + 1 occurrences, which the
spec says must be accepted — is rejected by the code. -/
theorem blue_and_absent_rejects_every_word_witness :
    letterCount wSousa 's' = 2 ∧ wSousa[0]? = some 's' ∧
    checkConstraints wSousa cBlueAbsent = false :=
  ⟨by decide, by decide,
    blue_and_absent_rejects_every_word cBlueAbsent 's' (by decide) (by decide) (by decide)
      (by decide) wSousa⟩

/-- Every entry collected by the suggestion loop is a matching dictionary
word carrying its own score. -/
theorem collectMatches_spec (rc : RawConstraints) (score : Word → Nat) :
    ∀ (dict : List Word) (len cap : Nat) (e : Word × Nat),
      e ∈ collectMatches rc score dict len cap →
      e.1 ∈ dict ∧ matchesConstraints e.1 rc = true ∧ e.2 = score e.1 := by
  intro dict
  induction dict with
  | nil => intro len cap e h; simp [collectMatches] at h
  | cons w rest ih =>
    intro len cap e h
    simp only [collectMatches] at h
    by_cases hm : matchesConstraints w rc = true
    · rw [if_pos hm] at h
      by_cases hcap : cap ≤ len + 1
      · rw [if_pos hcap] at h
        simp only [List.mem_singleton] at h
        subst h
        exact ⟨List.mem_cons_self w rest, hm, rfl⟩
      · rw [if_neg hcap] at h
        rcases List.mem_cons.mp h with h | h
        · subst h
          exact ⟨List.mem_cons_self w rest, hm, rfl⟩
        · obtain ⟨h1, h2, h3⟩ := ih (len + 1) cap e h
          exact ⟨List.mem_cons_of_mem w h1, h2, h3⟩
    · rw [if_neg hm] at h
      obtain ⟨h1, h2, h3⟩ := ih len cap e h
      exact ⟨List.mem_cons_of_mem w h1, h2, h3⟩

/-- Claim C6: the suggestion operation returns at most `limit` words, every
returned word is in the unranked filter result, and the returned words are in
non-increasing order of `scoreWord` (sum over the word's distinct letters of
that letter's total occurrence count across the dictionary). -/
theorem getSuggestions_capped_subset_sorted (dict : List Word) (rc : RawConstraints)
    (limit : Nat) :
    (getSuggestions dict rc limit).length ≤ limit ∧
    (∀ w ∈ getSuggestions dict rc limit, w ∈ filterWords dict rc) ∧
    (getSuggestions dict rc limit).Pairwise
      (fun a b => scoreWord dict b ≤ scoreWord dict a) := by
  have hsorted : ((collectMatches rc (scoreWord dict) dict 0 (limit * 3)).insertionSort
      (fun a b => b.2 ≤ a.2)).Pairwise (fun a b : Word × Nat => b.2 ≤ a.2) := by
    haveI : IsTotal (Word × Nat) (fun a b => b.2 ≤ a.2) := ⟨fun a b => Nat.le_total b.2 a.2⟩
    haveI : IsTrans (Word × Nat) (fun a b => b.2 ≤ a.2) :=
      ⟨fun a b c h1 h2 => Nat.le_trans h2 h1⟩
    exact List.sorted_insertionSort _ _
  refine ⟨?_, ?_, ?_⟩
  · simp only [getSuggestions, List.length_map, List.length_take]
    omega
  · intro w hw
    simp only [getSuggestions, List.mem_map] at hw
    obtain ⟨e, he, rfl⟩ := hw
    have he2 : e ∈ (collectMatches rc (scoreWord dict) dict 0 (limit * 3)).insertionSort
        (fun a b => b.2 ≤ a.2) := (List.take_sublist _ _).subset he
    rw [List.mem_insertionSort] at he2
    obtain ⟨h1, h2, h3⟩ := collectMatches_spec rc (scoreWord dict) dict 0 (limit * 3) e he2
    exact mem_filterWords.mpr ⟨h1, h2⟩
  · simp only [getSuggestions]
    rw [List.pairwise_map]
    have ht := hsorted.sublist (List.take_sublist limit _)
    refine List.Pairwise.imp_of_mem ?_ ht
    intro a b ha hb hab
    have ha2 : a ∈ collectMatches rc (scoreWord dict) dict 0 (limit * 3) := by
      have h := (List.take_sublist limit _).subset ha
      rwa [List.mem_insertionSort] at h
    have hb2 : b ∈ collectMatches rc (scoreWord dict) dict 0 (limit * 3) := by
      have h := (List.take_sublist limit _).subset hb
      rwa [List.mem_insertionSort] at h
    have ha3 := collectMatches_spec rc (scoreWord dict) dict 0 (limit * 3) a ha2
    have hb3 := collectMatches_spec rc (scoreWord dict) dict 0 (limit * 3) b hb2
    rw [← ha3.2.2, ← hb3.2.2]
    exact hab

end WordleCz
